import Mathlib

/-!
Verification of the geekmagic-hacs rendering core against its specification.

The Python source is shallowly embedded:
* Python `str` values are lists of Unicode codepoints (`List Nat`);
* Python `float` values are modelled as exact rationals (`ℚ`);
* Python `int(x)` (truncation toward zero) is `pyInt`;
* Python `int` values are `ℤ` (or `ℕ` for counts that are list lengths);
* imperative loops become structural/well-founded recursions or folds.
-/

/-- Python `int(q)` on a real value: truncation toward zero. -/
def pyInt (q : ℚ) : ℤ := if 0 ≤ q then ⌊q⌋ else -⌊-q⌋

/-- Evaluation helper for `pyInt` on nonnegative values. -/
theorem pyInt_eq (q : ℚ) (n : ℤ) (hn : 0 ≤ n) (h0 : (n : ℚ) ≤ q) (h1 : q < n + 1) :
    pyInt q = n := by
  have hq : 0 ≤ q := le_trans (by exact_mod_cast hn) h0
  unfold pyInt
  rw [if_pos hq]
  exact Int.floor_eq_iff.mpr ⟨h0, h1⟩

/-! ## Curve processor: `aggregate_ohlc`
(`custom_components/geekmagic/widgets/candlestick.py`, lines 17–83) -/

/-- Python `max(values)` for a nonempty list (default for the unreachable empty case). -/
def pyMax : List ℚ → ℚ
  | [] => 0
  | v :: t => t.foldl max v

/-- Python `min(values)` for a nonempty list. -/
def pyMin : List ℚ → ℚ
  | [] => 0
  | v :: t => t.foldl min v

/-- Python `values[-1]` for a nonempty list. -/
def pyLast : List ℚ → ℚ
  | [] => 0
  | v :: t => t.getLastD v

/-- Python `values[0]` for a nonempty list. -/
def pyHead : List ℚ → ℚ
  | [] => 0
  | v :: _ => v

/-- `end_ts = timestamped_values[-1][0]; start_ts = end_ts - candle_count * interval_seconds`. -/
def startTs (tv : List (ℚ × ℚ)) (interval : ℤ) (count : ℕ) : ℚ :=
  (tv.getLastD (0, 0)).1 - (count : ℤ) * interval

/-- `bucket_idx = min(int((ts - start_ts) / interval_seconds), candle_count - 1)`. -/
def bucketOf (start : ℚ) (interval : ℤ) (count : ℕ) (ts : ℚ) : ℤ :=
  min (pyInt ((ts - start) / (interval : ℚ))) ((count : ℤ) - 1)

/-- The bucketing loop of `aggregate_ohlc`: sample `(ts, v)` is appended to bucket
`bucket_idx` when `ts < start_ts` does not hold and `bucket_idx >= 0`; collecting
each bucket's values by a filter preserves the loop's append order. -/
def buckets (tv : List (ℚ × ℚ)) (start : ℚ) (interval : ℤ) (count : ℕ) :
    List (List ℚ) :=
  (List.range count).map fun (j : ℕ) =>
    tv.filterMap fun p =>
      if ¬ p.1 < start ∧ 0 ≤ bucketOf start interval count p.1 ∧
          bucketOf start interval count p.1 = (j : ℤ) then some p.2 else none

/-- Seeding loop `for values in buckets: if values: last_close = values[0]; break`. -/
def firstNonemptyHead (bs : List (List ℚ)) : Option ℚ :=
  (bs.find? fun vs => !vs.isEmpty).bind List.head?

/-- The candle-emitting loop of `aggregate_ohlc`: each nonempty bucket yields
`(values[0], max(values), min(values), values[-1])` and updates `last_close`;
each empty bucket yields a flat candle at `last_close`. -/
def toCandles : List (List ℚ) → ℚ → List (ℚ × ℚ × ℚ × ℚ)
  | [], _ => []
  | vs :: rest, lastClose =>
    match vs with
    | [] => (lastClose, lastClose, lastClose, lastClose) :: toCandles rest lastClose
    | v :: t =>
        (v, pyMax (v :: t), pyMin (v :: t), pyLast (v :: t)) ::
          toCandles rest (pyLast (v :: t))

/-- `aggregate_ohlc(timestamped_values, interval_seconds, candle_count)`
(candlestick.py lines 17–83), with timestamps and values as exact rationals. -/
def aggregate_ohlc (tv : List (ℚ × ℚ)) (interval : ℤ) (count : ℕ) :
    List (ℚ × ℚ × ℚ × ℚ) :=
  if tv = [] then []
  else
    let start := startTs tv interval count
    let bs := buckets tv start interval count
    match firstNonemptyHead bs with
    | none => []
    | some seed =>
        let pre := tv.takeWhile fun p => p.1 < start
        let lastClose := (pre.map Prod.snd).getLastD seed
        toCandles bs lastClose

/-- State update applied to `last_close` by one bucket of the candle loop. -/
def closeUpd (lc : ℚ) (vs : List ℚ) : ℚ :=
  match vs with
  | [] => lc
  | v :: t => t.getLastD v

/-- The `last_close` state seen by bucket `j` of the candle loop. -/
def stateAt (bs : List (List ℚ)) (lc : ℚ) (j : ℕ) : ℚ :=
  (bs.take j).foldl closeUpd lc

theorem toCandles_length (bs : List (List ℚ)) (lc : ℚ) :
    (toCandles bs lc).length = bs.length := by
  induction bs generalizing lc with
  | nil => rfl
  | cons vs rest ih =>
      cases vs with
      | nil => simpa [toCandles] using ih _
      | cons v t => simpa [toCandles] using ih _

/-- The candle produced from one bucket, given the incoming `last_close` state. -/
def mkCandle (lc : ℚ) (vs : List ℚ) : ℚ × ℚ × ℚ × ℚ :=
  match vs with
  | [] => (lc, lc, lc, lc)
  | v :: t => (v, pyMax (v :: t), pyMin (v :: t), pyLast (v :: t))

theorem closeUpd_of_ne (lc : ℚ) (vs : List ℚ) (h : vs ≠ []) :
    closeUpd lc vs = pyLast vs := by
  cases vs with
  | nil => exact absurd rfl h
  | cons v t => rfl

theorem toCandles_getElem? (bs : List (List ℚ)) (lc : ℚ) (j : ℕ)
    (hj : j < bs.length) :
    (toCandles bs lc)[j]? = some (mkCandle (stateAt bs lc j) (bs.get ⟨j, hj⟩)) := by
  induction bs generalizing lc j with
  | nil => simp at hj
  | cons vs rest ih =>
      have hstep : toCandles (vs :: rest) lc =
          mkCandle lc vs :: toCandles rest (closeUpd lc vs) := by
        cases vs with
        | nil => rfl
        | cons v t => rfl
      cases j with
      | zero => simp [hstep, stateAt, mkCandle]
      | succ j =>
          have hj' : j < rest.length := by simpa using hj
          have : stateAt (vs :: rest) lc (j + 1) = stateAt rest (closeUpd lc vs) j := by
            simp [stateAt, List.take_succ_cons]
          rw [hstep]
          simpa [this] using ih (closeUpd lc vs) j hj'

theorem foldl_closeUpd_empties (l : List (List ℚ)) (lc : ℚ)
    (h : ∀ vs ∈ l, vs = []) : l.foldl closeUpd lc = lc := by
  induction l generalizing lc with
  | nil => rfl
  | cons vs rest ih =>
      have h0 : vs = [] := h vs (List.mem_cons_self _ _)
      have hrest := ih lc (fun w hw => h w (List.mem_cons_of_mem _ hw))
      simp [h0, closeUpd]
      exact hrest

theorem stateAt_of_empties (bs : List (List ℚ)) (lc : ℚ) (j : ℕ)
    (h : ∀ i, i < j → ∀ hi : i < bs.length, bs.get ⟨i, hi⟩ = []) :
    stateAt bs lc j = lc := by
  apply foldl_closeUpd_empties
  intro vs hvs
  rcases List.mem_iff_getElem.mp hvs with ⟨m, hm, hval⟩
  have hmlen : m < bs.length := by
    have := hm
    simp [List.length_take] at this
    omega
  have hmj : m < j := by
    have := hm
    simp [List.length_take] at this
    omega
  have : (bs.take j)[m] = bs[m] := List.getElem_take ..
  rw [this] at hval
  rw [← hval]
  exact h m hmj hmlen

theorem stateAt_after_nonempty (bs : List (List ℚ)) (lc : ℚ) (i j : ℕ)
    (hij : i < j) (hi : i < bs.length) (hne : bs.get ⟨i, hi⟩ ≠ [])
    (hmid : ∀ k, i < k → k < j → ∀ hk : k < bs.length, bs.get ⟨k, hk⟩ = []) :
    stateAt bs lc j = pyLast (bs.get ⟨i, hi⟩) := by
  have hdecomp : j = (i + 1) + (j - (i + 1)) := by omega
  have hadd : ∀ a b : ℕ, stateAt bs lc (a + b) =
      ((bs.drop a).take b).foldl closeUpd (stateAt bs lc a) := by
    intro a b
    simp only [stateAt, List.take_add bs a b, List.foldl_append]
  have hsplit : stateAt bs lc j =
      ((bs.drop (i + 1)).take (j - (i + 1))).foldl closeUpd (stateAt bs lc (i + 1)) := by
    conv_lhs => rw [hdecomp]
    exact hadd (i + 1) (j - (i + 1))
  have hstate_i1 : stateAt bs lc (i + 1) = pyLast (bs.get ⟨i, hi⟩) := by
    unfold stateAt
    rw [List.take_succ, List.foldl_append]
    have hget : bs[i]? = some (bs.get ⟨i, hi⟩) := by
      simpa using List.getElem?_eq_getElem hi
    rw [hget]
    simp only [Option.toList_some, List.foldl_cons, List.foldl_nil]
    exact closeUpd_of_ne _ _ hne
  rw [hsplit, hstate_i1]
  apply foldl_closeUpd_empties
  intro vs hvs
  rcases List.mem_iff_getElem.mp hvs with ⟨m, hm, hval⟩
  have hlen1 : m < j - (i + 1) := by
    have := hm
    simp [List.length_take, List.length_drop] at this
    omega
  have hlen2 : i + 1 + m < bs.length := by
    have := hm
    simp [List.length_take, List.length_drop] at this
    omega
  have hd : m < (bs.drop (i + 1)).length := by
    simp [List.length_drop]
    omega
  have e1 : ((bs.drop (i + 1)).take (j - (i + 1)))[m] = (bs.drop (i + 1))[m] :=
    List.getElem_take ..
  have e2 : (bs.drop (i + 1))[m] = bs[i + 1 + m] := by
    simp [List.getElem_drop]
  rw [e1, e2] at hval
  rw [← hval]
  exact hmid (i + 1 + m) (by omega) (by omega) hlen2

theorem pyInt_intCast (n : ℤ) : pyInt ((n : ℤ) : ℚ) = n := by
  unfold pyInt
  split
  · simp
  · have h2 : (⌊-((n : ℤ) : ℚ)⌋ : ℤ) = -n := by
      rw [← Int.cast_neg]
      exact Int.floor_intCast (-n)
    rw [h2]
    omega

theorem buckets_length (tv : List (ℚ × ℚ)) (start : ℚ) (interval : ℤ) (count : ℕ) :
    (buckets tv start interval count).length = count := by
  unfold buckets
  rw [List.length_map, List.length_range]

theorem firstNonemptyHead_isSome (bs : List (List ℚ))
    (h : ∃ vs ∈ bs, vs ≠ []) : ∃ q, firstNonemptyHead bs = some q := by
  rcases h with ⟨vs, hmem, hne⟩
  have hfind : (bs.find? fun vs => !vs.isEmpty).isSome := by
    rw [List.find?_isSome]
    exact ⟨vs, hmem, by simpa [List.isEmpty_iff] using hne⟩
  rcases Option.isSome_iff_exists.mp hfind with ⟨w, hw⟩
  have hwne : w ≠ [] := by
    have := List.find?_some hw
    simpa [List.isEmpty_iff] using this
  cases w with
  | nil => exact absurd rfl hwne
  | cons a t => exact ⟨a, by simp [firstNonemptyHead, hw]⟩

/-- The last sample of the series always lands in the last bucket: its bucket
index is exactly `candle_count`, which the `min` clamps to `candle_count - 1`. -/
theorem last_bucket_nonempty (tv : List (ℚ × ℚ)) (interval : ℤ) (count : ℕ)
    (h1 : tv ≠ []) (h3 : 0 < interval) (h4 : 1 ≤ count) :
    ∃ hlt : count - 1 < (buckets tv (startTs tv interval count) interval count).length,
      (buckets tv (startTs tv interval count) interval count).get ⟨count - 1, hlt⟩ ≠ [] := by
  have hlt : count - 1 < (buckets tv (startTs tv interval count) interval count).length := by
    rw [buckets_length]; omega
  refine ⟨hlt, ?_⟩
  set lastp := tv.getLast h1 with hlastp
  have hlastD : tv.getLastD (0, 0) = lastp := by
    rw [List.getLastD_eq_getLast? (0, 0) tv, List.getLast?_eq_getLast tv h1]
    rfl
  have hstart : startTs tv interval count = lastp.1 - (count : ℤ) * interval := by
    unfold startTs
    rw [hlastD]
  have hprod : (0 : ℚ) ≤ (((count : ℤ) * interval : ℤ) : ℚ) := by
    have hz : (0 : ℤ) ≤ (count : ℤ) * interval := by positivity
    exact_mod_cast hz
  have hcond1 : ¬ lastp.1 < startTs tv interval count := by
    rw [hstart]
    intro hcontra
    push_cast at hprod hcontra
    linarith
  have hbucket : bucketOf (startTs tv interval count) interval count lastp.1 =
      (count : ℤ) - 1 := by
    unfold bucketOf
    have hdiff : lastp.1 - startTs tv interval count = ((count : ℤ) * interval : ℤ) := by
      rw [hstart]; push_cast; ring
    have hdiv : (lastp.1 - startTs tv interval count) / ((interval : ℤ) : ℚ) =
        (((count : ℕ) : ℤ) : ℚ) := by
      rw [hdiff]
      have hne : ((interval : ℤ) : ℚ) ≠ 0 := by
        exact_mod_cast h3.ne.symm
      push_cast
      field_simp
    rw [hdiv, pyInt_intCast]
    omega
  have hget : (buckets tv (startTs tv interval count) interval count).get ⟨count - 1, hlt⟩ =
      tv.filterMap fun p =>
        if ¬ p.1 < startTs tv interval count ∧
            0 ≤ bucketOf (startTs tv interval count) interval count p.1 ∧
            bucketOf (startTs tv interval count) interval count p.1 = ((count - 1 : ℕ) : ℤ)
        then some p.2 else none := by
    simp only [buckets, List.get_eq_getElem, List.getElem_map, List.getElem_range]
  rw [hget]
  have hmem : lastp ∈ tv := List.getLast_mem h1
  have hcast : ((count - 1 : ℕ) : ℤ) = (count : ℤ) - 1 := by omega
  have hval : lastp.2 ∈ tv.filterMap fun p =>
      if ¬ p.1 < startTs tv interval count ∧
          0 ≤ bucketOf (startTs tv interval count) interval count p.1 ∧
          bucketOf (startTs tv interval count) interval count p.1 = ((count - 1 : ℕ) : ℤ)
      then some p.2 else none := by
    rw [List.mem_filterMap]
    refine ⟨lastp, hmem, ?_⟩
    rw [if_pos]
    exact ⟨hcond1, by rw [hbucket]; omega, by rw [hbucket, hcast]⟩
  exact List.ne_nil_of_mem hval

/-- Under the validity hypotheses the seeding scan always finds a nonempty bucket. -/
theorem seed_exists (tv : List (ℚ × ℚ)) (interval : ℤ) (count : ℕ)
    (h1 : tv ≠ []) (h3 : 0 < interval) (h4 : 1 ≤ count) :
    ∃ q, firstNonemptyHead (buckets tv (startTs tv interval count) interval count) =
      some q := by
  rcases last_bucket_nonempty tv interval count h1 h3 h4 with ⟨hlt, hne⟩
  exact firstNonemptyHead_isSome _ ⟨_, List.get_mem _ _ hlt, hne⟩

theorem aggregate_eq_toCandles (tv : List (ℚ × ℚ)) (interval : ℤ) (count : ℕ) (q : ℚ)
    (h1 : tv ≠ [])
    (hq : firstNonemptyHead (buckets tv (startTs tv interval count) interval count) =
      some q) :
    aggregate_ohlc tv interval count =
      toCandles (buckets tv (startTs tv interval count) interval count)
        (((tv.takeWhile fun p => p.1 < startTs tv interval count).map Prod.snd).getLastD q) := by
  unfold aggregate_ohlc
  rw [if_neg h1]
  simp only [hq]

theorem init_le_foldl_max (l : List ℚ) (a : ℚ) : a ≤ l.foldl max a := by
  induction l generalizing a with
  | nil => exact le_refl a
  | cons x l ih => exact le_trans (le_max_left a x) (ih (max a x))

theorem mem_le_foldl_max (l : List ℚ) (a : ℚ) (x : ℚ) (hx : x ∈ l) :
    x ≤ l.foldl max a := by
  induction l generalizing a with
  | nil => simp at hx
  | cons y l ih =>
      rcases List.mem_cons.mp hx with h | h
      · subst h
        exact le_trans (le_max_right a x) (init_le_foldl_max l (max a x))
      · exact ih (max a y) h

theorem foldl_min_le_init (l : List ℚ) (a : ℚ) : l.foldl min a ≤ a := by
  induction l generalizing a with
  | nil => exact le_refl a
  | cons x l ih => exact le_trans (ih (min a x)) (min_le_left a x)

theorem foldl_min_le_mem (l : List ℚ) (a : ℚ) (x : ℚ) (hx : x ∈ l) :
    l.foldl min a ≤ x := by
  induction l generalizing a with
  | nil => simp at hx
  | cons y l ih =>
      rcases List.mem_cons.mp hx with h | h
      · subst h
        exact le_trans (foldl_min_le_init l (min a x)) (min_le_right a x)
      · exact ih (min a y) h

theorem mem_le_pyMax (v : ℚ) (t : List ℚ) (x : ℚ) (hx : x ∈ v :: t) :
    x ≤ pyMax (v :: t) := by
  rcases List.mem_cons.mp hx with h | h
  · subst h
    exact init_le_foldl_max t x
  · exact mem_le_foldl_max t v x h

theorem pyMin_le_mem (v : ℚ) (t : List ℚ) (x : ℚ) (hx : x ∈ v :: t) :
    pyMin (v :: t) ≤ x := by
  rcases List.mem_cons.mp hx with h | h
  · subst h
    exact foldl_min_le_init t x
  · exact foldl_min_le_mem t v x h

theorem getLastD_mem (v : ℚ) (t : List ℚ) : t.getLastD v ∈ v :: t := by
  induction t generalizing v with
  | nil => simp
  | cons w t ih =>
      rw [List.getLastD_cons]
      exact List.mem_cons_of_mem v (ih w)

theorem pyLast_mem (v : ℚ) (t : List ℚ) : pyLast (v :: t) ∈ v :: t := by
  have h : pyLast (v :: t) = t.getLastD v := rfl
  rw [h]
  exact getLastD_mem v t

/-- Every candle emitted by the candle loop satisfies `l ≤ o ≤ h` and `l ≤ c ≤ h`. -/
theorem toCandles_wf (bs : List (List ℚ)) (lc : ℚ) (cd : ℚ × ℚ × ℚ × ℚ)
    (hcd : cd ∈ toCandles bs lc) :
    cd.2.2.1 ≤ cd.1 ∧ cd.1 ≤ cd.2.1 ∧ cd.2.2.1 ≤ cd.2.2.2 ∧ cd.2.2.2 ≤ cd.2.1 := by
  induction bs generalizing lc with
  | nil => simp [toCandles] at hcd
  | cons vs rest ih =>
      cases vs with
      | nil =>
          rw [toCandles] at hcd
          rcases List.mem_cons.mp hcd with h | h
          · subst h
            exact ⟨le_refl _, le_refl _, le_refl _, le_refl _⟩
          · exact ih _ h
      | cons v t =>
          rw [toCandles] at hcd
          rcases List.mem_cons.mp hcd with h | h
          · subst h
            refine ⟨?_, ?_, ?_, ?_⟩
            · exact pyMin_le_mem v t v (List.mem_cons_self v t)
            · exact mem_le_pyMax v t v (List.mem_cons_self v t)
            · exact pyMin_le_mem v t _ (pyLast_mem v t)
            · exact mem_le_pyMax v t _ (pyLast_mem v t)
          · exact ih _ h

/-- C3: for every time-ordered nonempty series, positive interval and candle
count `N ≥ 1`, `aggregate_ohlc` returns a list of exactly `N` candles (by
`aggregate_eq_toCandles` the `j`-th candle is computed from the `j`-th time
bucket, so the output is in chronological bucket order). -/
theorem C3_aggregate_ohlc_candle_count (tv : List (ℚ × ℚ)) (interval : ℤ) (count : ℕ)
    (h1 : tv ≠ []) (h2 : List.Pairwise (fun a b => a.1 ≤ b.1) tv)
    (h3 : 0 < interval) (h4 : 1 ≤ count) :
    (aggregate_ohlc tv interval count).length = count := by
  rcases seed_exists tv interval count h1 h3 h4 with ⟨q, hq⟩
  rw [aggregate_eq_toCandles tv interval count q h1 hq, toCandles_length, buckets_length]

/-- Witness for C3 at the one-sample series `[(0, 1)]`, interval 1, count 1. -/
theorem C3_aggregate_ohlc_candle_count_witness :
    ([((0 : ℚ), (1 : ℚ))] ≠ ([] : List (ℚ × ℚ))) ∧
      (aggregate_ohlc [((0 : ℚ), (1 : ℚ))] 1 1).length = 1 :=
  ⟨by simp,
    C3_aggregate_ohlc_candle_count [((0 : ℚ), (1 : ℚ))] 1 1 (by simp) (by simp)
      (by norm_num) (by norm_num)⟩

/-- C9: every candle `(o, h, l, c)` returned by `aggregate_ohlc` is well-formed:
`l ≤ o ≤ h` and `l ≤ c ≤ h` (nonempty buckets take `h`/`l` as max/min over values
that include `o` and `c`; empty buckets yield four equal fields). -/
theorem C9_aggregate_ohlc_candles_well_formed (tv : List (ℚ × ℚ)) (interval : ℤ)
    (count : ℕ) :
    (aggregate_ohlc tv interval count).Forall fun cd =>
      cd.2.2.1 ≤ cd.1 ∧ cd.1 ≤ cd.2.1 ∧ cd.2.2.1 ≤ cd.2.2.2 ∧ cd.2.2.2 ≤ cd.2.1 := by
  rw [List.forall_iff_forall_mem]
  intro cd hcd
  by_cases htv : tv = []
  · subst htv
    simp [aggregate_ohlc] at hcd
  · rcases hq : firstNonemptyHead (buckets tv (startTs tv interval count) interval count)
      with _ | q
    · unfold aggregate_ohlc at hcd
      rw [if_neg htv] at hcd
      simp only [hq] at hcd
      simp at hcd
    · rw [aggregate_eq_toCandles tv interval count q htv hq] at hcd
      exact toCandles_wf _ _ _ hcd

theorem getLastD_map_snd_pair (l : List (ℚ × ℚ)) (a : ℚ × ℚ) :
    (l.map Prod.snd).getLastD a.2 = (l.getLastD a).2 := by
  induction l generalizing a with
  | nil => rfl
  | cons b t ih =>
      rw [List.map_cons, List.getLastD_cons, List.getLastD_cons]
      exact ih b

theorem getLastD_map_snd (l : List (ℚ × ℚ)) (d : ℚ) (h : l ≠ []) :
    (l.map Prod.snd).getLastD d = (l.getLastD (0, 0)).2 := by
  cases l with
  | nil => exact absurd rfl h
  | cons b t =>
      rw [List.map_cons, List.getLastD_cons, List.getLastD_cons]
      exact getLastD_map_snd_pair t b

/-- C4: an empty bucket yields a flat candle whose level is the close of the
nearest preceding nonempty bucket; when all buckets before it are empty and
samples strictly before the window start exist, the level is the value of the
last such sample (the latest one, as the series is time-ordered). -/
theorem C4_empty_bucket_carry_forward (tv : List (ℚ × ℚ)) (interval : ℤ) (count : ℕ)
    (j : ℕ) (h1 : tv ≠ []) (h2 : List.Pairwise (fun a b => a.1 ≤ b.1) tv)
    (h3 : 0 < interval) (h4 : 1 ≤ count)
    (hempty : (buckets tv (startTs tv interval count) interval count)[j]? = some []) :
    (∀ i vs, i < j →
        (buckets tv (startTs tv interval count) interval count)[i]? = some vs →
        vs ≠ [] →
        (∀ k, i < k → k < j →
          (buckets tv (startTs tv interval count) interval count)[k]? = some []) →
        (aggregate_ohlc tv interval count)[j]? =
          some (pyLast vs, pyLast vs, pyLast vs, pyLast vs)) ∧
    ((∀ i, i < j →
        (buckets tv (startTs tv interval count) interval count)[i]? = some []) →
      (tv.takeWhile fun p => p.1 < startTs tv interval count) ≠ [] →
      (aggregate_ohlc tv interval count)[j]? =
        some (((tv.takeWhile fun p => p.1 < startTs tv interval count).getLastD (0, 0)).2,
          ((tv.takeWhile fun p => p.1 < startTs tv interval count).getLastD (0, 0)).2,
          ((tv.takeWhile fun p => p.1 < startTs tv interval count).getLastD (0, 0)).2,
          ((tv.takeWhile fun p => p.1 < startTs tv interval count).getLastD (0, 0)).2)) := by
  rcases seed_exists tv interval count h1 h3 h4 with ⟨q, hq⟩
  have hagg := aggregate_eq_toCandles tv interval count q h1 hq
  have hjlen : j < (buckets tv (startTs tv interval count) interval count).length := by
    rcases List.getElem?_eq_some.mp hempty with ⟨hlt, _⟩
    exact hlt
  have hBj : (buckets tv (startTs tv interval count) interval count).get ⟨j, hjlen⟩ = [] := by
    have h' := List.getElem?_eq_getElem hjlen
    rw [hempty] at h'
    rw [List.get_eq_getElem]
    exact (Option.some.injEq _ _ ▸ h'.symm)
  have hout : ∀ lc : ℚ,
      (toCandles (buckets tv (startTs tv interval count) interval count) lc)[j]? =
        some (stateAt (buckets tv (startTs tv interval count) interval count) lc j,
          stateAt (buckets tv (startTs tv interval count) interval count) lc j,
          stateAt (buckets tv (startTs tv interval count) interval count) lc j,
          stateAt (buckets tv (startTs tv interval count) interval count) lc j) := by
    intro lc
    rw [toCandles_getElem? _ lc j hjlen, hBj]
    rfl
  constructor
  · intro i vs hij hi hvs hmid
    have hilen : i < (buckets tv (startTs tv interval count) interval count).length := by
      rcases List.getElem?_eq_some.mp hi with ⟨hlt, _⟩
      exact hlt
    have hBi : (buckets tv (startTs tv interval count) interval count).get ⟨i, hilen⟩ = vs := by
      have h' := List.getElem?_eq_getElem hilen
      rw [hi] at h'
      rw [List.get_eq_getElem]
      exact (Option.some.injEq _ _ ▸ h'.symm)
    have hstate := stateAt_after_nonempty
      (buckets tv (startTs tv interval count) interval count)
      (((tv.takeWhile fun p => p.1 < startTs tv interval count).map Prod.snd).getLastD q)
      i j hij hilen (by rw [hBi]; exact hvs) ?_
    · rw [hagg, hout, hstate, hBi]
    · intro k hik hkj hk
      have h' := List.getElem?_eq_getElem hk
      rw [hmid k hik hkj] at h'
      rw [List.get_eq_getElem]
      exact (Option.some.injEq _ _ ▸ h'.symm)
  · intro hall hpre
    have hstate := stateAt_of_empties
      (buckets tv (startTs tv interval count) interval count)
      (((tv.takeWhile fun p => p.1 < startTs tv interval count).map Prod.snd).getLastD q)
      j ?_
    · rw [hagg, hout, hstate, getLastD_map_snd _ q hpre]
    · intro i hij hi
      have h' := List.getElem?_eq_getElem hi
      rw [hall i hij] at h'
      rw [List.get_eq_getElem]
      exact (Option.some.injEq _ _ ▸ h'.symm)

/-- C5: the spec scenario: eight samples, interval 3600, two candles; the sample
at the exact end boundary `t = 7200` is clamped into the last bucket. -/
theorem C5_aggregate_ohlc_scenario :
    aggregate_ohlc
        [((0 : ℚ), (10 : ℚ)), (1000, 15), (2000, 8), (3500, 12), (3700, 20),
          (5000, 25), (6000, 18), (7200, 22)] 3600 2 =
      [(10, 15, 8, 12), (20, 25, 18, 22)] := by
  have hstart : startTs
      [((0 : ℚ), (10 : ℚ)), (1000, 15), (2000, 8), (3500, 12), (3700, 20),
        (5000, 25), (6000, 18), (7200, 22)] 3600 2 = 0 := by
    simp [startTs]
    norm_num
  have hb0 : bucketOf 0 3600 2 (0 : ℚ) = 0 := by
    unfold bucketOf
    rw [pyInt_eq _ 0 (by norm_num) (by norm_num) (by norm_num)]
    norm_num
  have hb1 : bucketOf 0 3600 2 (1000 : ℚ) = 0 := by
    unfold bucketOf
    rw [pyInt_eq _ 0 (by norm_num) (by norm_num) (by norm_num)]
    norm_num
  have hb2 : bucketOf 0 3600 2 (2000 : ℚ) = 0 := by
    unfold bucketOf
    rw [pyInt_eq _ 0 (by norm_num) (by norm_num) (by norm_num)]
    norm_num
  have hb3 : bucketOf 0 3600 2 (3500 : ℚ) = 0 := by
    unfold bucketOf
    rw [pyInt_eq _ 0 (by norm_num) (by norm_num) (by norm_num)]
    norm_num
  have hb4 : bucketOf 0 3600 2 (3700 : ℚ) = 1 := by
    unfold bucketOf
    rw [pyInt_eq _ 1 (by norm_num) (by norm_num) (by norm_num)]
    norm_num
  have hb5 : bucketOf 0 3600 2 (5000 : ℚ) = 1 := by
    unfold bucketOf
    rw [pyInt_eq _ 1 (by norm_num) (by norm_num) (by norm_num)]
    norm_num
  have hb6 : bucketOf 0 3600 2 (6000 : ℚ) = 1 := by
    unfold bucketOf
    rw [pyInt_eq _ 1 (by norm_num) (by norm_num) (by norm_num)]
    norm_num
  have hb7 : bucketOf 0 3600 2 (7200 : ℚ) = 1 := by
    unfold bucketOf
    rw [pyInt_eq _ 2 (by norm_num) (by norm_num) (by norm_num)]
    norm_num
  have hB : buckets
      [((0 : ℚ), (10 : ℚ)), (1000, 15), (2000, 8), (3500, 12), (3700, 20),
        (5000, 25), (6000, 18), (7200, 22)] 0 3600 2 =
      [[10, 15, 8, 12], [20, 25, 18, 22]] := by
    norm_num [buckets, List.range_succ, List.filterMap_cons, hb0, hb1, hb2, hb3,
      hb4, hb5, hb6, hb7]
  have hseed : firstNonemptyHead
      (buckets
        [((0 : ℚ), (10 : ℚ)), (1000, 15), (2000, 8), (3500, 12), (3700, 20),
          (5000, 25), (6000, 18), (7200, 22)]
        (startTs
          [((0 : ℚ), (10 : ℚ)), (1000, 15), (2000, 8), (3500, 12), (3700, 20),
            (5000, 25), (6000, 18), (7200, 22)] 3600 2) 3600 2) = some 10 := by
    rw [hstart, hB]
    simp [firstNonemptyHead, List.find?]
  rw [aggregate_eq_toCandles _ 3600 2 10 (by simp) hseed, hstart, hB]
  have hpre : List.takeWhile (fun p => p.1 < (0 : ℚ))
      [((0 : ℚ), (10 : ℚ)), (1000, 15), (2000, 8), (3500, 12), (3700, 20),
        (5000, 25), (6000, 18), (7200, 22)] = [] := by
    rw [List.takeWhile_cons]
    norm_num
  rw [hpre]
  norm_num [toCandles, pyMax, pyMin, pyLast]

/-- Witness for C4: series `[(0,5),(30,7)]`, interval 10, three candles; bucket 1
is empty and carries forward the close 5 of bucket 0. -/
theorem C4_empty_bucket_carry_forward_witness :
    (aggregate_ohlc [((0 : ℚ), (5 : ℚ)), (30, 7)] 10 3)[1]? = some (5, 5, 5, 5) := by
  have hst : startTs [((0 : ℚ), (5 : ℚ)), (30, 7)] 10 3 = 0 := by
    simp [startTs]
    norm_num
  have hc0 : bucketOf 0 10 3 (0 : ℚ) = 0 := by
    unfold bucketOf
    rw [pyInt_eq _ 0 (by norm_num) (by norm_num) (by norm_num)]
    norm_num
  have hc30 : bucketOf 0 10 3 (30 : ℚ) = 2 := by
    unfold bucketOf
    rw [pyInt_eq _ 3 (by norm_num) (by norm_num) (by norm_num)]
    norm_num
  have hBB : buckets [((0 : ℚ), (5 : ℚ)), (30, 7)] 0 10 3 = [[5], [], [7]] := by
    norm_num [buckets, List.range_succ, List.filterMap_cons, hc0, hc30]
  have hmain := (C4_empty_bucket_carry_forward [((0 : ℚ), (5 : ℚ)), (30, 7)] 10 3 1
    (by simp) (by norm_num) (by norm_num) (by norm_num)
    (by rw [hst, hBB]; rfl)).1 0 [5] (by norm_num)
    (by rw [hst, hBB]; rfl) (by simp)
    (by intro k hk1 hk2; exact absurd hk1 (by omega))
  simpa [pyLast] using hmain

/-! ## Text segmenter (`custom_components/geekmagic/emoji.py`)
Strings are lists of Unicode codepoints, as Python strings are sequences of
codepoints. -/

/-- `_EMOJI_RANGES` (emoji.py lines 49–120). -/
def emojiRanges : List (Nat × Nat) :=
  [(0x1F300, 0x1F9FF), (0x1FA00, 0x1FA6F), (0x1FA70, 0x1FAFF), (0x2600, 0x26FF),
   (0x2700, 0x27BF), (0x231A, 0x231B), (0x23E9, 0x23F3), (0x23F8, 0x23FA),
   (0x25AA, 0x25AB), (0x25B6, 0x25B6), (0x25C0, 0x25C0), (0x25FB, 0x25FE),
   (0x2614, 0x2615), (0x2648, 0x2653), (0x267F, 0x267F), (0x2693, 0x2693),
   (0x26A1, 0x26A1), (0x26AA, 0x26AB), (0x26BD, 0x26BE), (0x26C4, 0x26C5),
   (0x26CE, 0x26CE), (0x26D4, 0x26D4), (0x26EA, 0x26EA), (0x26F2, 0x26F3),
   (0x26F5, 0x26F5), (0x26FA, 0x26FA), (0x26FD, 0x26FD), (0x2702, 0x2702),
   (0x2705, 0x2705), (0x2708, 0x270D), (0x270F, 0x270F), (0x2712, 0x2712),
   (0x2714, 0x2714), (0x2716, 0x2716), (0x271D, 0x271D), (0x2721, 0x2721),
   (0x2728, 0x2728), (0x2733, 0x2734), (0x2744, 0x2744), (0x2747, 0x2747),
   (0x274C, 0x274C), (0x274E, 0x274E), (0x2753, 0x2755), (0x2757, 0x2757),
   (0x2763, 0x2764), (0x2795, 0x2797), (0x27A1, 0x27A1), (0x27B0, 0x27B0),
   (0x27BF, 0x27BF), (0x2934, 0x2935), (0x2B05, 0x2B07), (0x2B1B, 0x2B1C),
   (0x2B50, 0x2B50), (0x2B55, 0x2B55), (0x3030, 0x3030), (0x303D, 0x303D),
   (0x3297, 0x3297), (0x3299, 0x3299), (0x1F004, 0x1F004), (0x1F0CF, 0x1F0CF),
   (0x1F170, 0x1F171), (0x1F17E, 0x1F17F), (0x1F18E, 0x1F18E), (0x1F191, 0x1F19A),
   (0x1F1E0, 0x1F1FF), (0x1F201, 0x1F202), (0x1F21A, 0x1F21A), (0x1F22F, 0x1F22F),
   (0x1F232, 0x1F23A), (0x1F250, 0x1F251)]

/-- Membership in `_EMOJI_CODEPOINTS` (the union of the ranges). -/
def inEmojiRanges (c : Nat) : Bool :=
  emojiRanges.any fun p => decide (p.1 ≤ c) && decide (c ≤ p.2)

/-- `_SKIN_TONE_MODIFIERS = set(range(0x1F3FB, 0x1F400))`. -/
def isSkinTone (c : Nat) : Bool :=
  decide (0x1F3FB ≤ c) && decide (c ≤ 0x1F3FF)

/-- `is_emoji_codepoint` (emoji.py lines 144–157). -/
def is_emoji_codepoint (c : Nat) : Bool :=
  inEmojiRanges c || isSkinTone c || decide (c = 0xFE0F)

/-- `_KEYCAP_BASE = {ord("#"), ord("*")} | set(range(ord("0"), ord("9") + 1))`. -/
def isKeycapBase (c : Nat) : Bool :=
  decide (c = 35) || decide (c = 42) || (decide (48 ≤ c) && decide (c ≤ 57))

/-- `SegmentType` (emoji.py lines 13–17). -/
inductive SegmentType where
  | TEXT : SegmentType
  | EMOJI : SegmentType
deriving DecidableEq

/-- `TextSegment` (emoji.py lines 20–25). -/
structure TextSegment where
  text : List Nat
  segment_type : SegmentType
deriving DecidableEq

/-- The inner `while` loop of `segment_text` (emoji.py lines 230–261) that
swallows modifiers after an emoji whose first codepoint is `c0`: returns the
collected extra codepoints and the remaining input. A text-presentation
variation selector `U+FE0E` is consumed but not collected. -/
def collectEmoji (c0 : Nat) : List Nat → List Nat × List Nat
  | [] => ([], [])
  | n :: rest =>
    if n = 0x200D then
      match rest with
      | [] => ([n], [])
      | m :: rest2 =>
          let p := collectEmoji c0 rest2
          (n :: m :: p.1, p.2)
    else if isSkinTone n then
      let p := collectEmoji c0 rest
      (n :: p.1, p.2)
    else if n = 0xFE0F then
      let p := collectEmoji c0 rest
      (n :: p.1, p.2)
    else if n = 0xFE0E then
      collectEmoji c0 rest
    else if 0x1F1E0 ≤ n ∧ n ≤ 0x1F1FF ∧ 0x1F1E0 ≤ c0 ∧ c0 ≤ 0x1F1FF then
      let p := collectEmoji c0 rest
      (n :: p.1, p.2)
    else ([], n :: rest)

/-- `if current_text: segments.append(TextSegment(current_text, TEXT))`. -/
def flushText (cur : List Nat) : List TextSegment :=
  if cur = [] then [] else [⟨cur, SegmentType.TEXT⟩]

theorem collectEmoji_snd_length (c0 : Nat) (l : List Nat) :
    (collectEmoji c0 l).2.length ≤ l.length := by
  induction l using collectEmoji.induct c0 with
  | case1 => simp [collectEmoji]
  | case2 => simp [collectEmoji]
  | case3 m rest2 ih =>
      simp [collectEmoji]
      omega
  | case4 m rest2 h1 h2 ih =>
      rw [collectEmoji.eq_def]
      simp [h1, h2]
      omega
  | case5 rest2 h1 h2 ih =>
      rw [collectEmoji.eq_def]
      simp [isSkinTone]
      omega
  | case6 rest2 h1 h2 h3 ih =>
      rw [collectEmoji.eq_def]
      simp [isSkinTone]
      omega
  | case7 m rest2 h1 h2 h3 h4 h5 ih =>
      rw [collectEmoji.eq_def]
      simp [h1, h2, h3, h4, h5]
      omega
  | case8 m rest2 h1 h2 h3 h4 h5 =>
      rw [collectEmoji.eq_def]
      simp [h1, h2, h3, h4, h5]

/-- The main scan loop of `segment_text` (emoji.py lines 189–298): `cur` is the
pending `current_text` run. An emoji codepoint flushes the pending text and
opens an emoji sequence; a keycap base followed by `U+FE0F U+20E3` flushes and
emits the three-codepoint keycap sequence; everything else accumulates. -/
def segmentTextAux : List Nat → List Nat → List TextSegment
  | cur, [] => flushText cur
  | cur, c :: rest =>
    if is_emoji_codepoint c then
      flushText cur ++
        (⟨c :: (collectEmoji c rest).1, SegmentType.EMOJI⟩ ::
          segmentTextAux [] (collectEmoji c rest).2)
    else
      match rest with
      | a :: b :: rest2 =>
        if isKeycapBase c ∧ a = 0xFE0F ∧ b = 0x20E3 then
          flushText cur ++ (⟨[c, a, b], SegmentType.EMOJI⟩ :: segmentTextAux [] rest2)
        else segmentTextAux (cur ++ [c]) (a :: b :: rest2)
      | [] => segmentTextAux (cur ++ [c]) []
      | [a] => segmentTextAux (cur ++ [c]) [a]
termination_by cur cs => cs.length
decreasing_by
  all_goals simp only [List.length_cons, List.length_nil]
  all_goals try omega
  all_goals (have hle := collectEmoji_snd_length c rest; omega)

/-- `segment_text(text)` (emoji.py lines 189–298). -/
def segment_text (s : List Nat) : List TextSegment := segmentTextAux [] s

/-- Concatenation of the text fields of a list of segments. -/
def concatSegments (segs : List TextSegment) : List Nat :=
  (segs.map TextSegment.text).flatten

theorem concat_flushText (cur : List Nat) : concatSegments (flushText cur) = cur := by
  unfold flushText concatSegments
  split
  · simp_all
  · simp

theorem concat_append (l1 l2 : List TextSegment) :
    concatSegments (l1 ++ l2) = concatSegments l1 ++ concatSegments l2 := by
  simp [concatSegments]

theorem concat_cons (x : TextSegment) (l : List TextSegment) :
    concatSegments (x :: l) = x.text ++ concatSegments l := by
  simp [concatSegments]

/-- When the input contains no `U+FE0E`, the inner collection loop keeps every
codepoint it consumes. -/
theorem collectEmoji_concat (c0 : Nat) (l : List Nat) (h : 0xFE0E ∉ l) :
    (collectEmoji c0 l).1 ++ (collectEmoji c0 l).2 = l := by
  induction l using collectEmoji.induct c0 with
  | case1 => simp [collectEmoji]
  | case2 => simp [collectEmoji]
  | case3 m rest2 ih =>
      have h2 : 0xFE0E ∉ rest2 := fun hc => h (by simp [hc])
      rw [collectEmoji.eq_def]
      simp [ih h2]
  | case4 m rest2 h1 hskin ih =>
      have h2 : 0xFE0E ∉ rest2 := fun hc => h (by simp [hc])
      rw [collectEmoji.eq_def]
      simp [h1, hskin, ih h2]
  | case5 rest2 h1 hskin ih =>
      have h2 : 0xFE0E ∉ rest2 := fun hc => h (by simp [hc])
      rw [collectEmoji.eq_def]
      simp [isSkinTone, ih h2]
  | case6 rest2 h1 h2 h3 ih =>
      exact absurd (List.mem_cons_self 0xFE0E rest2) h
  | case7 m rest2 h1 h2 h3 h4 h5 ih =>
      have hm : 0xFE0E ∉ rest2 := fun hc => h (by simp [hc])
      rw [collectEmoji.eq_def]
      simp [h1, h2, h3, h4, h5, ih hm]
  | case8 m rest2 h1 h2 h3 h4 h5 =>
      rw [collectEmoji.eq_def]
      simp [h1, h2, h3, h4, h5]

/-- Round-trip of the scan loop on inputs free of `U+FE0E`: the emitted segments
concatenate to the pending text followed by the remaining input. -/
theorem segmentTextAux_concat (cur cs : List Nat) (h : 0xFE0E ∉ cs) :
    concatSegments (segmentTextAux cur cs) = cur ++ cs := by
  induction cur, cs using segmentTextAux.induct with
  | case1 cur =>
      rw [segmentTextAux.eq_def]
      simp [concat_flushText]
  | case2 cur c rest hc ih =>
      have hrest : 0xFE0E ∉ rest := fun hx => h (List.mem_cons_of_mem _ hx)
      have hcc := collectEmoji_concat c rest hrest
      have hs2 : 0xFE0E ∉ (collectEmoji c rest).2 := by
        intro hx
        exact hrest (hcc ▸ List.mem_append_right _ hx)
      rw [segmentTextAux.eq_def]
      simp only [hc, if_pos]
      rw [concat_append, concat_flushText, concat_cons, ih hs2]
      simp only [List.nil_append, List.cons_append, List.append_assoc, hcc]
  | case3 cur c hc a b rest2 hkey ih =>
      have hrest2 : 0xFE0E ∉ rest2 := by
        intro hx
        exact h (by simp [hx])
      rw [segmentTextAux.eq_def]
      simp only [hc, Bool.false_eq_true, if_false, hkey, and_self, if_true]
      rw [concat_append, concat_flushText, concat_cons, ih hrest2]
      simp
  | case4 cur c hc a b rest2 hnkey ih =>
      have hrest : 0xFE0E ∉ a :: b :: rest2 := fun hx => h (List.mem_cons_of_mem _ hx)
      rw [segmentTextAux.eq_def]
      simp only [hc, Bool.false_eq_true, if_false, hnkey, if_false]
      rw [ih hrest]
      simp
  | case5 cur c hc ih =>
      rw [segmentTextAux.eq_def]
      simp only [hc, Bool.false_eq_true, if_false]
      rw [ih (by simp)]
      simp
  | case6 cur c hc a ih =>
      have hrest : 0xFE0E ∉ [a] := fun hx => h (List.mem_cons_of_mem _ hx)
      rw [segmentTextAux.eq_def]
      simp only [hc, Bool.false_eq_true, if_false]
      rw [ih hrest]
      simp

theorem segmentTextAux_nil (cur : List Nat) : segmentTextAux cur [] = flushText cur := by
  rw [segmentTextAux.eq_def]

theorem segmentTextAux_emoji (cur : List Nat) (c : Nat) (rest : List Nat)
    (hc : is_emoji_codepoint c = true) :
    segmentTextAux cur (c :: rest) =
      flushText cur ++
        (⟨c :: (collectEmoji c rest).1, SegmentType.EMOJI⟩ ::
          segmentTextAux [] (collectEmoji c rest).2) := by
  rw [segmentTextAux.eq_def]
  simp [hc]

theorem segmentTextAux_keycap (cur : List Nat) (c a b : Nat) (rest2 : List Nat)
    (hc : ¬ is_emoji_codepoint c = true)
    (hkey : isKeycapBase c = true ∧ a = 0xFE0F ∧ b = 0x20E3) :
    segmentTextAux cur (c :: a :: b :: rest2) =
      flushText cur ++ (⟨[c, a, b], SegmentType.EMOJI⟩ :: segmentTextAux [] rest2) := by
  rw [segmentTextAux.eq_def]
  rcases hkey with ⟨h1, h2, h3⟩
  subst h2
  subst h3
  simp [hc, h1]

theorem segmentTextAux_plain3 (cur : List Nat) (c a b : Nat) (rest2 : List Nat)
    (hc : ¬ is_emoji_codepoint c = true)
    (hnkey : ¬(isKeycapBase c = true ∧ a = 0xFE0F ∧ b = 0x20E3)) :
    segmentTextAux cur (c :: a :: b :: rest2) =
      segmentTextAux (cur ++ [c]) (a :: b :: rest2) := by
  rw [segmentTextAux.eq_def]
  simp [hc, hnkey]

theorem segmentTextAux_plain0 (cur : List Nat) (c : Nat)
    (hc : ¬ is_emoji_codepoint c = true) :
    segmentTextAux cur [c] = segmentTextAux (cur ++ [c]) [] := by
  rw [segmentTextAux.eq_def]
  simp [hc]

theorem segmentTextAux_plain1 (cur : List Nat) (c a : Nat)
    (hc : ¬ is_emoji_codepoint c = true) :
    segmentTextAux cur [c, a] = segmentTextAux (cur ++ [c]) [a] := by
  rw [segmentTextAux.eq_def]
  simp [hc]

theorem flushText_text_ne (cur : List Nat) (seg : TextSegment)
    (h : seg ∈ flushText cur) : seg.text ≠ [] := by
  by_cases hcur : cur = []
  · simp [flushText, hcur] at h
  · simp [flushText, hcur] at h
    rw [h]
    exact hcur

/-- Every segment emitted by the scan loop has nonempty text. -/
theorem segmentTextAux_text_ne (cur cs : List Nat) (seg : TextSegment)
    (hseg : seg ∈ segmentTextAux cur cs) : seg.text ≠ [] := by
  induction cur, cs using segmentTextAux.induct with
  | case1 cur =>
      rw [segmentTextAux_nil] at hseg
      exact flushText_text_ne cur seg hseg
  | case2 cur c rest hc ih =>
      rw [segmentTextAux_emoji cur c rest hc] at hseg
      rcases List.mem_append.mp hseg with hm | hm
      · exact flushText_text_ne cur seg hm
      · rcases List.mem_cons.mp hm with hm2 | hm2
        · rw [hm2]
          exact List.cons_ne_nil _ _
        · exact ih hm2
  | case3 cur c hc a b rest2 hkey ih =>
      rw [segmentTextAux_keycap cur c a b rest2 hc hkey] at hseg
      rcases List.mem_append.mp hseg with hm | hm
      · exact flushText_text_ne cur seg hm
      · rcases List.mem_cons.mp hm with hm2 | hm2
        · rw [hm2]
          exact List.cons_ne_nil _ _
        · exact ih hm2
  | case4 cur c hc a b rest2 hnkey ih =>
      rw [segmentTextAux_plain3 cur c a b rest2 hc hnkey] at hseg
      exact ih hseg
  | case5 cur c hc ih =>
      rw [segmentTextAux_plain0 cur c hc] at hseg
      exact ih hseg
  | case6 cur c hc a ih =>
      rw [segmentTextAux_plain1 cur c a hc] at hseg
      exact ih hseg

theorem flushText_chain (cur : List Nat)
    (R : TextSegment → TextSegment → Prop) : List.Chain' R (flushText cur) := by
  unfold flushText
  split
  · exact List.chain'_nil
  · exact List.chain'_singleton _

/-- No two consecutive segments emitted by the scan loop are both plain text:
a text run is flushed only when an emoji or keycap segment follows it (or at
the very end of the input). -/
theorem segmentTextAux_chain (cur cs : List Nat) :
    List.Chain' (fun a b : TextSegment =>
      ¬(a.segment_type = SegmentType.TEXT ∧ b.segment_type = SegmentType.TEXT))
      (segmentTextAux cur cs) := by
  induction cur, cs using segmentTextAux.induct with
  | case1 cur =>
      rw [segmentTextAux_nil]
      exact flushText_chain cur _
  | case2 cur c rest hc ih =>
      rw [segmentTextAux_emoji cur c rest hc]
      rw [List.chain'_append]
      refine ⟨flushText_chain cur _, List.chain'_cons'.mpr ⟨fun y hy => by simp, ih⟩, ?_⟩
      intro x hx y hy
      simp at hy
      rw [← hy]
      simp
  | case3 cur c hc a b rest2 hkey ih =>
      rw [segmentTextAux_keycap cur c a b rest2 hc hkey]
      rw [List.chain'_append]
      refine ⟨flushText_chain cur _, List.chain'_cons'.mpr ⟨fun y hy => by simp, ih⟩, ?_⟩
      intro x hx y hy
      simp at hy
      rw [← hy]
      simp
  | case4 cur c hc a b rest2 hnkey ih =>
      rw [segmentTextAux_plain3 cur c a b rest2 hc hnkey]
      exact ih
  | case5 cur c hc ih =>
      rw [segmentTextAux_plain0 cur c hc]
      exact ih
  | case6 cur c hc a ih =>
      rw [segmentTextAux_plain1 cur c a hc]
      exact ih

/-- Counterexample to C1 as stated: for the watch emoji `U+231A` followed by the
text-presentation variation selector `U+FE0E`, the selector is consumed but
dropped (emoji.py lines 248–250), so the concatenated segments miss it. -/
theorem C1_roundtrip_counterexample :
    segment_text [0x231A, 0xFE0E] =
        [⟨[0x231A], SegmentType.EMOJI⟩] ∧
      concatSegments (segment_text [0x231A, 0xFE0E]) ≠ [0x231A, 0xFE0E] := by
  have h1 : is_emoji_codepoint 0x231A = true := rfl
  have h2 : collectEmoji 0x231A [0xFE0E] = ([], []) := rfl
  have hseg : segment_text [0x231A, 0xFE0E] = [⟨[0x231A], SegmentType.EMOJI⟩] := by
    rw [segment_text, segmentTextAux_emoji [] 0x231A [0xFE0E] h1, h2, segmentTextAux_nil]
    rfl
  refine ⟨hseg, ?_⟩
  rw [hseg]
  simp [concatSegments]

/-- C1 (amended): for every input containing no `U+FE0E`, concatenating the
text fields of the segments of `segment_text`, in order, equals the input. -/
theorem C1_segmentation_roundtrip (s : List Nat) (h : 0xFE0E ∉ s) :
    concatSegments (segment_text s) = s := by
  rw [segment_text, segmentTextAux_concat [] s h]
  rfl

/-- Witness for the amended C1 on `"Hey👋🏽!"` (waving hand + skin-tone modifier). -/
theorem C1_segmentation_roundtrip_witness :
    (0xFE0E ∉ [72, 101, 121, 0x1F44B, 0x1F3FD, 33]) ∧
      concatSegments (segment_text [72, 101, 121, 0x1F44B, 0x1F3FD, 33]) =
        [72, 101, 121, 0x1F44B, 0x1F3FD, 33] :=
  ⟨by decide, C1_segmentation_roundtrip [72, 101, 121, 0x1F44B, 0x1F3FD, 33] (by decide)⟩

/-- C10: every segment returned by `segment_text` has nonempty text, and no two
consecutive segments are both of type `TEXT` (a plain run is flushed only when
an emoji or keycap sequence begins; adjacent `EMOJI` segments can occur). -/
theorem C10_segments_nonempty_no_adjacent_text (s : List Nat) :
    (segment_text s).Forall (fun seg => seg.text ≠ []) ∧
      List.Chain' (fun a b : TextSegment =>
        ¬(a.segment_type = SegmentType.TEXT ∧ b.segment_type = SegmentType.TEXT))
        (segment_text s) := by
  constructor
  · rw [List.forall_iff_forall_mem]
    intro seg hseg
    exact segmentTextAux_text_ne [] s seg hseg
  · exact segmentTextAux_chain [] s

/-! ## Component system (`custom_components/geekmagic/widgets/components.py`)
Only the `measure` capability is needed by the claims. Variants whose measure
depends on the render context or on child subtrees (Text, Panel, Row, Column,
Stack, Center, Padding) are represented by `other` carrying their measure
behaviour as a function, which keeps the Adaptive theorem quantified over
arbitrary children. -/

inductive Component where
  | icon (size : Option ℤ) (minSize maxSize : ℤ)
  | bar (height : Option ℤ)
  | spacer (minSize : ℤ)
  | empty
  | ring
  | arc
  | sparkline
  | other (measureFn : ℤ → ℤ → ℤ × ℤ)

/-- `Icon._calculate_size` (components.py lines 152–156). -/
def iconCalcSize (size : Option ℤ) (minSize maxSize available : ℤ) : ℤ :=
  match size with
  | some s => s
  | none => max minSize (min maxSize available)

/-- Python `self.height or default`: `None` and `0` are both falsy. -/
def pyOrInt (v : Option ℤ) (d : ℤ) : ℤ :=
  match v with
  | none => d
  | some h => if h = 0 then d else h

/-- `measure(ctx, max_width, max_height)` for each leaf variant:
Icon lines 158–160, Bar lines 182–184, Spacer lines 313–314, Empty lines
324–325, Ring lines 201–203, Arc lines 229–231, Sparkline lines 255–256. -/
def Component.measure : Component → ℤ → ℤ → ℤ × ℤ
  | .icon size mn mx, maxW, maxH =>
      (iconCalcSize size mn mx (min maxW maxH), iconCalcSize size mn mx (min maxW maxH))
  | .bar height, maxW, maxH =>
      (maxW, pyOrInt height (max 6 (pyInt ((maxH : ℚ) * 0.15))))
  | .spacer mn, _, _ => (mn, mn)
  | .empty, _, _ => (0, 0)
  | .ring, maxW, maxH => (min maxW maxH, min maxW maxH)
  | .arc, maxW, maxH => (min maxW maxH, min maxW maxH)
  | .sparkline, maxW, maxH => (maxW, maxH)
  | .other f, maxW, maxH => f maxW maxH

/-- The layout `Adaptive.render` delegates to: a Row with
`justify="space-between", align="center"`, a Column with
`justify="center", align="center"`, or nothing when there are no children. -/
inductive AdaptiveChoice where
  | asRow
  | asColumn
  | skip
deriving DecidableEq

/-- The decision made by `Adaptive.render` (components.py lines 522–551):
filter out `None` children, measure each against the inner width, compare the
total (including `gap * (n - 1)`) against the inner width once, and pick Row or
Column for the whole render. -/
def adaptiveRenderChoice (children : List (Option Component)) (gap padding : ℤ)
    (width height : ℤ) : AdaptiveChoice :=
  let cs := children.reduceOption
  if cs.isEmpty then .skip
  else
    let innerW := width - padding * 2
    let totalWidth := (cs.map fun c => (c.measure innerW height).1).sum +
      gap * ((cs.length : ℤ) - 1)
    if totalWidth ≤ innerW then .asRow else .asColumn

/-- C6: with non-`None` children present, `Adaptive.render` lays out as a Column
(justify=center) exactly when the measured widths plus `gap * (n - 1)` exceed
`width - 2 * padding`, and as a Row (justify=space-between) otherwise; the
comparison is a single decision for the whole render. -/
theorem C6_adaptive_row_or_column (children : List (Option Component))
    (gap padding width height : ℤ) (h : children.reduceOption ≠ []) :
    (¬((children.reduceOption.map fun c =>
          (c.measure (width - padding * 2) height).1).sum +
        gap * ((children.reduceOption.length : ℤ) - 1) ≤ width - padding * 2) →
      adaptiveRenderChoice children gap padding width height =
        AdaptiveChoice.asColumn) ∧
    (((children.reduceOption.map fun c =>
          (c.measure (width - padding * 2) height).1).sum +
        gap * ((children.reduceOption.length : ℤ) - 1) ≤ width - padding * 2) →
      adaptiveRenderChoice children gap padding width height =
        AdaptiveChoice.asRow) := by
  unfold adaptiveRenderChoice
  have hne : ¬ children.reduceOption.isEmpty := by
    simpa [List.isEmpty_iff] using h
  constructor
  · intro hgt
    simp [hne, hgt]
  · intro hle
    simp [hne, hle]

/-- Witness for C6: one icon child in a wide box chooses the Row layout. -/
theorem C6_adaptive_row_or_column_witness :
    ([some (Component.icon none 12 32)].reduceOption ≠ []) ∧
      ((([some (Component.icon none 12 32)].reduceOption.map fun c =>
            (c.measure ((100 : ℤ) - 0 * 2) 50).1).sum +
          6 * (([some (Component.icon none 12 32)].reduceOption.length : ℤ) - 1) ≤
            100 - 0 * 2) →
        adaptiveRenderChoice [some (Component.icon none 12 32)] 6 0 100 50 =
          AdaptiveChoice.asRow) :=
  ⟨by simp,
    (C6_adaptive_row_or_column [some (Component.icon none 12 32)] 6 0 100 50
      (by simp)).2⟩

/-- Counterexample to C2 as stated: `Icon.measure` is floored at `min_size`
(default 12), so with bounds `(0, 0)` it returns `(12, 12)`, exceeding both
maxima; `measure` is therefore not clamped to the max bounds. -/
theorem C2_measure_clamped_counterexample :
    (Component.icon none 12 32).measure 0 0 = (12, 12) ∧
      ¬(((Component.icon none 12 32).measure 0 0).1 ≤ 0) := by
  constructor
  · rfl
  · decide

/-- C2 (amended): auto-sized `Icon.measure` is within the bounds whenever
`min(maxW, maxH)` is at least `min_size`, and default-height `Bar.measure` has
width exactly `maxW` and height within `maxH` whenever `maxH ≥ 6`; below those
floors the floor value is returned and may exceed the bounds. -/
theorem C2_icon_bar_measure_bounds (mn mx maxW maxH : ℤ)
    (hIcon : mn ≤ min maxW maxH) (hBar : 6 ≤ maxH) :
    ((Component.icon none mn mx).measure maxW maxH).1 ≤ maxW ∧
      ((Component.icon none mn mx).measure maxW maxH).2 ≤ maxH ∧
      ((Component.bar none).measure maxW maxH).1 ≤ maxW ∧
      ((Component.bar none).measure maxW maxH).2 ≤ maxH := by
  have hq : (0 : ℚ) ≤ (maxH : ℚ) * 0.15 := by
    have hH : (0 : ℚ) ≤ (maxH : ℚ) := by
      exact_mod_cast (by omega : (0 : ℤ) ≤ maxH)
    nlinarith
  have hle : (maxH : ℚ) * 0.15 ≤ ((maxH : ℤ) : ℚ) := by
    have hH : (0 : ℚ) ≤ (maxH : ℚ) := by
      exact_mod_cast (by omega : (0 : ℤ) ≤ maxH)
    nlinarith
  have hfloor : pyInt ((maxH : ℚ) * 0.15) ≤ maxH := by
    unfold pyInt
    rw [if_pos hq]
    calc ⌊(maxH : ℚ) * 0.15⌋ ≤ ⌊((maxH : ℤ) : ℚ)⌋ := Int.floor_le_floor hle
      _ = maxH := Int.floor_intCast maxH
  refine ⟨?_, ?_, ?_, ?_⟩
  · simp only [Component.measure, iconCalcSize]
    omega
  · simp only [Component.measure, iconCalcSize]
    omega
  · simp only [Component.measure]
    exact le_refl maxW
  · simp only [Component.measure, pyOrInt]
    omega

/-- Witness for the amended C2 at bounds `(20, 20)`. -/
theorem C2_icon_bar_measure_bounds_witness :
    ((12 : ℤ) ≤ min 20 20 ∧ (6 : ℤ) ≤ 20) ∧
      ((Component.icon none 12 32).measure 20 20).1 ≤ 20 ∧
        ((Component.icon none 12 32).measure 20 20).2 ≤ 20 ∧
        ((Component.bar none).measure 20 20).1 ≤ 20 ∧
        ((Component.bar none).measure 20 20).2 ≤ 20 :=
  ⟨⟨by decide, by decide⟩,
    C2_icon_bar_measure_bounds 12 32 20 20 (by decide) (by decide)⟩

/-! ## Renderer color helpers and JPEG encode loop
(`custom_components/geekmagic/renderer.py`) -/

/-- `Renderer.dim_color(color, factor)` (renderer.py lines 1205–1219):
`int(channel * factor)` per channel, with no clamping. -/
def dim_color (c : ℤ × ℤ × ℤ) (factor : ℚ) : ℤ × ℤ × ℤ :=
  (pyInt ((c.1 : ℚ) * factor), pyInt ((c.2.1 : ℚ) * factor),
    pyInt ((c.2.2 : ℚ) * factor))

/-- `Renderer.blend_color(color1, color2, factor)` (renderer.py lines
1221–1241): `int(c1 + (c2 - c1) * factor)` per channel, with no clamping. -/
def blend_color (c1 c2 : ℤ × ℤ × ℤ) (factor : ℚ) : ℤ × ℤ × ℤ :=
  (pyInt ((c1.1 : ℚ) + ((c2.1 : ℚ) - (c1.1 : ℚ)) * factor),
    pyInt ((c1.2.1 : ℚ) + ((c2.2.1 : ℚ) - (c1.2.1 : ℚ)) * factor),
    pyInt ((c1.2.2 : ℚ) + ((c2.2.2 : ℚ) - (c1.2.2 : ℚ)) * factor))

/-- All three channels lie in `[0, 255]`. -/
def inRgbRange (c : ℤ × ℤ × ℤ) : Prop :=
  0 ≤ c.1 ∧ c.1 ≤ 255 ∧ 0 ≤ c.2.1 ∧ c.2.1 ≤ 255 ∧ 0 ≤ c.2.2 ∧ c.2.2 ≤ 255

theorem pyInt_range (q : ℚ) (h0 : 0 ≤ q) (h255 : q ≤ 255) :
    0 ≤ pyInt q ∧ pyInt q ≤ 255 := by
  unfold pyInt
  rw [if_pos h0]
  constructor
  · exact Int.floor_nonneg.mpr h0
  · calc ⌊q⌋ ≤ ⌊((255 : ℤ) : ℚ)⌋ := Int.floor_le_floor (by exact_mod_cast h255)
      _ = 255 := Int.floor_intCast 255

theorem dim_channel_range (x : ℤ) (f : ℚ) (hx0 : 0 ≤ x) (hx : x ≤ 255)
    (hf0 : 0 ≤ f) (hf1 : f ≤ 1) :
    0 ≤ pyInt ((x : ℚ) * f) ∧ pyInt ((x : ℚ) * f) ≤ 255 := by
  have hx0' : (0 : ℚ) ≤ (x : ℚ) := by exact_mod_cast hx0
  have hx' : (x : ℚ) ≤ 255 := by exact_mod_cast hx
  exact pyInt_range _ (mul_nonneg hx0' hf0) (by nlinarith)

theorem blend_channel_range (x y : ℤ) (f : ℚ) (hx0 : 0 ≤ x) (hx : x ≤ 255)
    (hy0 : 0 ≤ y) (hy : y ≤ 255) (hf0 : 0 ≤ f) (hf1 : f ≤ 1) :
    0 ≤ pyInt ((x : ℚ) + ((y : ℚ) - (x : ℚ)) * f) ∧
      pyInt ((x : ℚ) + ((y : ℚ) - (x : ℚ)) * f) ≤ 255 := by
  have hx0' : (0 : ℚ) ≤ (x : ℚ) := by exact_mod_cast hx0
  have hx' : (x : ℚ) ≤ 255 := by exact_mod_cast hx
  have hy0' : (0 : ℚ) ≤ (y : ℚ) := by exact_mod_cast hy0
  have hy' : (y : ℚ) ≤ 255 := by exact_mod_cast hy
  exact pyInt_range _ (by nlinarith) (by nlinarith)

/-- Counterexample to C7 as stated: no clamping is applied, so a factor outside
`[0, 1]` produces an out-of-range channel: `dim_color((200,0,0), 2) = (400,0,0)`. -/
theorem C7_color_clamping_counterexample :
    dim_color (200, 0, 0) 2 = (400, 0, 0) ∧ ¬((400 : ℤ) ≤ 255) := by
  constructor
  · unfold dim_color
    rw [pyInt_eq _ 400 (by norm_num) (by norm_num) (by norm_num)]
    rw [pyInt_eq _ 0 (by norm_num) (by norm_num) (by norm_num)]
  · decide

/-- C7 (amended): `dim_color` and `blend_color` are the per-channel truncations
of the scalar-multiply / linear-interpolation formulas; their results lie in
`[0, 255]` whenever the factor lies in `[0, 1]` (no clamping is applied, so
factors outside `[0, 1]` can leave the range, as the counterexample shows). -/
theorem C7_dim_blend_color_range (c c1 c2 : ℤ × ℤ × ℤ) (factor : ℚ)
    (hf0 : 0 ≤ factor) (hf1 : factor ≤ 1)
    (hc : inRgbRange c) (hc1 : inRgbRange c1) (hc2 : inRgbRange c2) :
    inRgbRange (dim_color c factor) ∧ inRgbRange (blend_color c1 c2 factor) := by
  obtain ⟨ha1, ha2, ha3, ha4, ha5, ha6⟩ := hc
  obtain ⟨hb1, hb2, hb3, hb4, hb5, hb6⟩ := hc1
  obtain ⟨hd1, hd2, hd3, hd4, hd5, hd6⟩ := hc2
  constructor
  · obtain ⟨e1, e2⟩ := dim_channel_range c.1 factor ha1 ha2 hf0 hf1
    obtain ⟨e3, e4⟩ := dim_channel_range c.2.1 factor ha3 ha4 hf0 hf1
    obtain ⟨e5, e6⟩ := dim_channel_range c.2.2 factor ha5 ha6 hf0 hf1
    exact ⟨e1, e2, e3, e4, e5, e6⟩
  · obtain ⟨e1, e2⟩ := blend_channel_range c1.1 c2.1 factor hb1 hb2 hd1 hd2 hf0 hf1
    obtain ⟨e3, e4⟩ := blend_channel_range c1.2.1 c2.2.1 factor hb3 hb4 hd3 hd4 hf0 hf1
    obtain ⟨e5, e6⟩ := blend_channel_range c1.2.2 c2.2.2 factor hb5 hb6 hd5 hd6 hf0 hf1
    exact ⟨e1, e2, e3, e4, e5, e6⟩

/-- Witness for the amended C7 at `factor = 1/2`. -/
theorem C7_dim_blend_color_range_witness :
    ((0 : ℚ) ≤ 1 / 2 ∧ (1 : ℚ) / 2 ≤ 1 ∧ inRgbRange (200, 0, 0) ∧
        inRgbRange (0, 255, 10) ∧ inRgbRange (100, 50, 20)) ∧
      inRgbRange (dim_color (200, 0, 0) (1 / 2)) ∧
        inRgbRange (blend_color (0, 255, 10) (100, 50, 20) (1 / 2)) :=
  ⟨⟨by norm_num, by norm_num, by norm_num [inRgbRange], by norm_num [inRgbRange],
      by norm_num [inRgbRange]⟩,
    C7_dim_blend_color_range (200, 0, 0) (0, 255, 10) (100, 50, 20) (1 / 2)
      (by norm_num) (by norm_num) (by norm_num [inRgbRange])
      (by norm_num [inRgbRange]) (by norm_num [inRgbRange])⟩

/-- The quality-reduction `while` loop of `Renderer.to_jpeg` (renderer.py lines
1336–1341): while the current result exceeds `max_size` and the quality is
above the floor 20, decrease the quality by the fixed step 10 and re-encode.
The external JPEG encoder (`final_img.save`) is modelled as an arbitrary
function from quality to the encoded bytes. -/
def toJpegLoop (encode : ℤ → List ℕ) (maxSize : ℕ) (q : ℤ) (result : List ℕ) :
    List ℕ :=
  if result.length > maxSize ∧ q > 20 then
    toJpegLoop encode maxSize (q - 10) (encode (q - 10))
  else result
termination_by (q - 20).toNat
decreasing_by omega

/-- The size-capped portion of `Renderer.to_jpeg` (renderer.py lines 1331–1343):
encode once at the requested quality, then run the reduction loop. -/
def to_jpeg_bytes (encode : ℤ → List ℕ) (maxSize : ℕ) (quality : ℤ) : List ℕ :=
  toJpegLoop encode maxSize quality (encode quality)

theorem toJpegLoop_spec (encode : ℤ → List ℕ) (maxSize : ℕ) (q : ℤ) :
    ∃ k : ℕ, toJpegLoop encode maxSize q (encode q) = encode (q - 10 * k) ∧
      ((encode (q - 10 * k)).length ≤ maxSize ∨ q - 10 * k ≤ 20) ∧
      ∀ j : ℕ, j < k →
        (encode (q - 10 * j)).length > maxSize ∧ q - 10 * j > 20 := by
  by_cases hcond : (encode q).length > maxSize ∧ q > 20
  · obtain ⟨k, hk1, hk2, hk3⟩ := toJpegLoop_spec encode maxSize (q - 10)
    have he : q - 10 - 10 * (k : ℤ) = q - 10 * ((k : ℕ) + 1 : ℕ) := by
      push_cast
      ring
    refine ⟨k + 1, ?_, ?_, ?_⟩
    · rw [toJpegLoop, if_pos hcond, hk1, he]
    · rw [← he]
      exact hk2
    · intro j hj
      cases j with
      | zero => simpa using hcond
      | succ j =>
          have hjk : j < k := by omega
          have hej : q - 10 - 10 * (j : ℤ) = q - 10 * ((j : ℕ) + 1 : ℕ) := by
            push_cast
            ring
          rw [← hej]
          exact hk3 j hjk
  · refine ⟨0, ?_, ?_, ?_⟩
    · rw [toJpegLoop, if_neg hcond]
      simp
    · simp only [Nat.cast_zero, mul_zero, sub_zero]
      omega
    · intro j hj
      exact absurd hj (Nat.not_lt_zero j)
termination_by (q - 20).toNat
decreasing_by omega

/-- C8: the quality-reduction loop in `to_jpeg` always terminates (the
definitions `toJpegLoop`/`to_jpeg_bytes` are total, by the strictly decreasing
measure `quality - 20`): there is a `k ≥ 0` such that the function returns the
bytes encoded at quality `quality - 10*k`, that final encode either fits in
`max_size` or has reached the quality floor, and every earlier iteration both
exceeded `max_size` and was above the floor. The last encode is returned even
when it still exceeds `max_size`, and no error is raised. -/
theorem C8_to_jpeg_quality_loop (encode : ℤ → List ℕ) (maxSize : ℕ) (quality : ℤ) :
    ∃ k : ℕ, to_jpeg_bytes encode maxSize quality = encode (quality - 10 * k) ∧
      ((encode (quality - 10 * k)).length ≤ maxSize ∨ quality - 10 * k ≤ 20) ∧
      ∀ j : ℕ, j < k →
        (encode (quality - 10 * j)).length > maxSize ∧ quality - 10 * j > 20 := by
  unfold to_jpeg_bytes
  exact toJpegLoop_spec encode maxSize quality
